import Mathlib

/-!
Shallow embedding of `travisfailed.py` (klauer/travisfailed).

The script fetches CI job logs, segments per-test failure output with two
regular expressions inside `parse_log`, greps raw lines for FAILED/ERROR/
SKIPPED markers, tallies counts, and optionally diffs divergent captures
across jobs.  The definitions below mirror the Python source; machine
strings are Lean `String`s (lists of characters), regexes are embedded as a
small backtracking matcher with Python's greedy, leftmost-preference
semantics.
-/

namespace Travisfailed

/-! ## A tiny regex engine

Python's `re.match` on a linear pattern (no alternation) performs a
depth-first search in which every greedy quantifier tries the longest
repetition first and earlier quantifiers have priority over later ones.
`RItem` covers exactly the constructs used by the two patterns in
`parse_log`: literal characters, greedy character-class repetitions with a
minimum count (`_______+`, `=====+`), the greedy dot-star, and the single
greedy capture group `(.*)`.
-/

inductive RItem where
  | lit (c : Char)
  | cls (p : Char → Bool) (minrep : Nat)
  | anyStar
  | group

/-- `descRange n m` is the list `[n, n-1, ..., m]` (empty when `n < m`):
the candidate repetition counts of a greedy quantifier, longest first. -/
def descRange (n m : Nat) : List Nat :=
  (List.range (n + 1 - m)).map (fun i => n - i)

/-- Length of the maximal prefix of `s` whose characters satisfy `p`. -/
def runLength (p : Char → Bool) : List Char → Nat
  | [] => 0
  | c :: cs => if p c then runLength p cs + 1 else 0

/-- First success of `f` over `l`, in order. -/
def firstSome {α : Type} (f : Nat → Option α) : List Nat → Option α
  | [] => none
  | k :: ks =>
    match f k with
    | some r => some r
    | none => firstSome f ks

/-- Whole-string match of an item sequence (no capture reported). -/
def matchTail : List RItem → List Char → Bool
  | [], s => s.isEmpty
  | .lit c :: rest, s =>
    match s with
    | [] => false
    | x :: xs => x == c && matchTail rest xs
  | .cls p m :: rest, s =>
    (descRange (runLength p s) m).any (fun j => matchTail rest (s.drop j))
  | .anyStar :: rest, s =>
    (descRange s.length 0).any (fun j => matchTail rest (s.drop j))
  | .group :: rest, s =>
    (descRange s.length 0).any (fun j => matchTail rest (s.drop j))

/-- Whole-string match returning the text of the (unique) capture group,
with Python's backtracking priority: candidates are tried longest-first at
every quantifier, and the first full match wins. -/
def matchCap : List RItem → List Char → Option (List Char)
  | [], _ => none
  | .lit c :: rest, s =>
    match s with
    | [] => none
    | x :: xs => if x == c then matchCap rest xs else none
  | .cls p m :: rest, s =>
    firstSome (fun j => matchCap rest (s.drop j)) (descRange (runLength p s) m)
  | .anyStar :: rest, s =>
    firstSome (fun j => matchCap rest (s.drop j)) (descRange s.length 0)
  | .group :: rest, s =>
    firstSome (fun j => if matchTail rest (s.drop j) then some (s.take j) else none)
      (descRange s.length 0)

def underscore (c : Char) : Bool := c == '_'

def equalsSign (c : Char) : Bool := c == '='

/-- Items of `re.compile('^.*_______+ (.*) __________+.*$')`
(7 literal underscores before the first `+`, 10 before the second). -/
def testItems : List RItem :=
  [.anyStar, .cls underscore 7, .lit ' ', .group, .lit ' ', .cls underscore 10, .anyStar]

/-- `test_marker.match(line)`: the captured test name, if the line matches. -/
def test_marker (s : List Char) : Option (List Char) :=
  matchCap testItems s

/-- Items of `re.compile('^.*=====+ .* in .* seconds ====+.*$')`
(5 literal equals signs before the first `+`, 4 before the second). -/
def endItems : List RItem :=
  [.anyStar, .cls equalsSign 5, .lit ' ', .anyStar, .lit ' ', .lit 'i', .lit 'n', .lit ' ',
   .anyStar, .lit ' ', .lit 's', .lit 'e', .lit 'c', .lit 'o', .lit 'n', .lit 'd', .lit 's',
   .lit ' ', .cls equalsSign 4, .anyStar]

/-- `end_marker.match(line)` as a Boolean. -/
def end_marker (s : List Char) : Bool :=
  matchTail endItems s

/-! ## `parse_log` -/

/-- The `error_marker` banner string (36 `=`, ` ERRORS `, 36 `=`). -/
def error_marker_str : String :=
  "==================================== ERRORS ===================================="

/-- The `failure_marker` banner string (35 `=`, ` FAILURES `, 35 `=`). -/
def failure_marker_str : String :=
  "=================================== FAILURES ==================================="

/-- Python dict assignment `d[k] = v`: replaces in place if the key exists
(keeping its position), otherwise appends at the end. -/
def dictSet (d : List (String × List String)) (k : String) (v : List String) :
    List (String × List String) :=
  if d.any (fun p => p.1 == k) then
    d.map (fun p => if p.1 == k then (k, v) else p)
  else
    d ++ [(k, v)]

/-- Python `d[k].append(line)` (a no-op on an absent key; in `parse_log` the
key is always present when this is reached). -/
def dictAppend (d : List (String × List String)) (k : String) (line : String) :
    List (String × List String) :=
  d.map (fun p => if p.1 == k then (p.1, p.2 ++ [line]) else p)

/-- The `for line in lines:` loop of `parse_log`: `acc` is `failed_lines`
(a dict in insertion order), `current` is `current_test` (`none` = Python
`None`).  Branch order follows the source: test marker, then banner
equality, then end marker, then the `if current_test:` append (Python
truthiness: `None` and the empty string are both falsy). -/
def scanLoop : List String → List (String × List String) → Option String →
    List (String × List String)
  | [], acc, _ => acc
  | line :: rest, acc, current =>
    match test_marker line.data with
    | some name => scanLoop rest (dictSet acc ⟨name⟩ []) (some ⟨name⟩)
    | none =>
      if line == failure_marker_str || line == error_marker_str then
        scanLoop rest acc none
      else if end_marker line.data then
        acc
      else
        match current with
        | some t => if t ≠ "" then scanLoop rest (dictAppend acc t line) current else
            scanLoop rest acc current
        | none => scanLoop rest acc current

/-- `min` of a nonempty list of naturals (Python `min(starting_points)`). -/
def listMin : List Nat → Option Nat
  | [] => none
  | x :: xs => some (xs.foldl Nat.min x)

structure ParseResult where
  result : List (String × List String)
  notice : Option String
  deriving DecidableEq

/-- `parse_log(id_, lines)`: locate the first occurrence of each banner,
start scanning just after the earliest one, or report a parse error when
neither banner occurs.  The mapping is returned in insertion order. -/
def parse_log (id_ : Nat) (lines : List String) : ParseResult :=
  let starting_points :=
    [error_marker_str, failure_marker_str].filterMap
      (fun m => lines.findIdx? (fun l => l == m))
  match listMin starting_points with
  | none => ⟨[], some ("ERROR: failed to parse job " ++ toString id_)⟩
  | some i => ⟨scanLoop (lines.drop (i + 1)) [] none, none⟩

/-! ## `grep_log_for_tests` -/

/-- `line.split(' ', 1)[0]`: the prefix of the line up to the first space
character (the whole line when it has no space). -/
def splitTok (line : String) : String :=
  ⟨line.data.takeWhile (fun c => c ≠ ' ')⟩

/-- `grep_log_for_tests(log_lines, test_path, markers=markers)`: one
identifier per line that contains some marker substring and starts with
`test_path`; duplicates retained, log order preserved.  (The `verbose`
echo is console output only and does not affect the returned list.) -/
def grep_log_for_tests (log_lines : List String) (test_path : String)
    (markers : List String) : List String :=
  log_lines.filterMap fun line =>
    if markers.any (fun m => decide (m.data <:+: line.data)) then
      if test_path.data <+: line.data then some (splitTok line) else none
    else none

/-! ## `compare_failures_with_tool`

A job is modelled as its id together with `job_info.get('log')` — `none`
when the job carries no log (the function then stores an empty
`failed_logs` for it).  Per test name `key`, the function collects one
joined blob per job that has a capture for `key`, skipping blobs equal to
one already collected, stopping once `max_diff` distinct blobs are
retained, and calls the external tool with one temporary file per retained
entry when more than one distinct value remains. -/

/-- `job_info['failed_logs']` as computed at the top of
`compare_failures_with_tool`. -/
def failedLogsOf (id_ : Nat) (jobLog : Option (List String)) :
    List (String × List String) :=
  match jobLog with
  | none => []
  | some lines => (parse_log id_ lines).result

/-- Python `failed_logs[key]` lookup (the `try ... except KeyError`). -/
def dictGet (d : List (String × List String)) (k : String) : Option (List String) :=
  (d.find? (fun p => p.1 == k)).map Prod.snd

/-- `'\n'.join(lines)`. -/
def joinLines (ls : List String) : String :=
  String.intercalate "\n" ls

/-- The inner `for id_, job_info in jobs.items():` collection loop for one
`key`: `logs` is the dict of retained `(job id, blob)` pairs. -/
def collectLogs (maxd : Option Nat) (key : String) :
    List (Nat × List (String × List String)) → List (Nat × String) →
    List (Nat × String)
  | [], logs => logs
  | (id_, fl) :: rest, logs =>
    match dictGet fl key with
    | none => collectLogs maxd key rest logs
    | some ls =>
      let lg := joinLines ls
      if logs.any (fun p => p.2 == lg) then collectLogs maxd key rest logs
      else
        let logs' := logs ++ [(id_, lg)]
        match maxd with
        | some m => if m ≤ logs'.length then logs' else collectLogs maxd key rest logs'
        | none => collectLogs maxd key rest logs'

/-- The per-`key` body of `compare_failures_with_tool`: `some files` means
the external diff tool is invoked exactly once for this test name, with one
temporary file per entry of `files` (written with that entry's blob);
`none` means the tool is not invoked for this test name. -/
def diffFilesFor (jobs : List (Nat × Option (List String))) (key : String)
    (maxd : Option Nat) : Option (List (Nat × String)) :=
  let fls := jobs.map (fun p => (p.1, failedLogsOf p.1 p.2))
  let logs := collectLogs maxd key fls []
  if 1 < (logs.map Prod.snd).dedup.length then some logs else none

/-- The blobs available for `key`, one per job whose `failed_logs` contains
`key`, in job order (before any deduplication). -/
def blobsFor (jobs : List (Nat × Option (List String))) (key : String) :
    List String :=
  jobs.filterMap (fun p => (dictGet (failedLogsOf p.1 p.2) key).map joinLines)

/-- First-occurrence deduplication (the effect of `if log not in
logs.values()` over a whole pass, without a cap). -/
def dedupFirstAux : List String → List String → List String
  | [], acc => acc
  | b :: bs, acc =>
    if b ∈ acc then dedupFirstAux bs acc else dedupFirstAux bs (acc ++ [b])

def dedupFirst (l : List String) : List String :=
  dedupFirstAux l []

/-! ## Counters and the final reports (`main`) -/

/-- `counter[test] += 1` on a `collections.Counter` holding only positive
counts: increment in place if present, else insert at the end with count 1
(dict insertion order). -/
def counterAdd (c : List (String × Nat)) (t : String) : List (String × Nat) :=
  if c.any (fun p => p.1 == t) then
    c.map (fun p => if p.1 == t then (p.1, p.2 + 1) else p)
  else
    c ++ [(t, 1)]

/-- The counter resulting from a stream of grepped test identifiers. -/
def counterOf (stream : List String) : List (String × Nat) :=
  stream.foldl counterAdd []

/-- Python tuple comparison `(name, count) <= (name', count')`
(lexicographic; string order is by code point, as in Python). -/
def pairLe (a b : String × Nat) : Bool :=
  if a.1 == b.1 then a.2 ≤ b.2 else decide (a.1 < b.1)

/-- Sort key `lambda x: x[1]` with `reverse=True`: `a` precedes `b` when
`a`'s count is at least `b`'s. -/
def countDescLe (a b : String × Nat) : Bool :=
  b.2 ≤ a.2

/-- Stable insertion: the new element goes after every element that is
`le`-below-or-equal to it, as Python's stable `sorted` does. -/
def stableInsert (le : α → α → Bool) (a : α) : List α → List α
  | [] => [a]
  | b :: l => if le b a then b :: stableInsert le a l else a :: b :: l

/-- A stable sort (Python `sorted`): elements are inserted left to right,
each after all earlier elements that compare `le` to it. -/
def stableSort (le : α → α → Bool) (l : List α) : List α :=
  l.foldl (fun acc a => stableInsert le a acc) []

/-- The failure-count report order:
`sorted(sorted(failed_tests.items()), key=lambda x: x[1], reverse=True)`. -/
def failedReport (items : List (String × Nat)) : List (String × Nat) :=
  stableSort countDescLe (stableSort pairLe items)

/-- The skipped-count report order: the bare `skipped_tests.items()` loop,
i.e. counter insertion order, unsorted. -/
def skippedReport (items : List (String × Nat)) : List (String × Nat) :=
  items

/-- The order the spec claims for the final reports: strictly descending
count, ties broken by ascending (lexicographic) identifier. -/
def reportOrdered (l : List (String × Nat)) : Prop :=
  l.Pairwise (fun a b => b.2 < a.2 ∨ (a.2 = b.2 ∧ a.1 < b.1))

/-! ## The per-job fetch loop of `main`

`main` iterates over the jobs; for each job in state `failed`/`errored` it
reads the cached log file when present, and otherwise calls `get_log`,
which can raise (the `travis` subprocess call).  There is no `try/except`
around this call, so the model threads the exception through `Except`. -/

structure JobRec where
  id : Nat
  state : String
  cached : Option (List String)
  fetchResult : Except String (List String)

/-- Obtain the log lines for one job: cache hit, else a fetch that may
fail. -/
def fetchLog (j : JobRec) : Except String (List String) :=
  match j.cached with
  | some ls => Except.ok ls
  | none => j.fetchResult

/-- The `for id_, job in jobs.items():` loop, reduced to log acquisition:
returns the `(id, log lines)` pairs of the processed failing jobs, or the
first uncaught fetch error. -/
def processJobs : List JobRec → Except String (List (Nat × List String))
  | [] => Except.ok []
  | j :: rest =>
    if j.state = "failed" ∨ j.state = "errored" then
      match fetchLog j with
      | Except.error e => Except.error e
      | Except.ok ls =>
        match processJobs rest with
        | Except.error e => Except.error e
        | Except.ok acc => Except.ok ((j.id, ls) :: acc)
    else processJobs rest

/-! ## Semantics of the matcher

`ItemsSem items s` is the declarative reading of an item sequence: the
string splits into consecutive pieces, one per item.  Matching succeeds if
and only if such a split exists (captures do not affect matchability). -/

def ItemsSem : List RItem → List Char → Prop
  | [], s => s = []
  | .lit c :: rest, s => ∃ s', s = c :: s' ∧ ItemsSem rest s'
  | .cls p m :: rest, s =>
    ∃ u s', m ≤ u.length ∧ (∀ c ∈ u, p c = true) ∧ s = u ++ s' ∧ ItemsSem rest s'
  | .anyStar :: rest, s => ∃ u s', s = u ++ s' ∧ ItemsSem rest s'
  | .group :: rest, s => ∃ u s', s = u ++ s' ∧ ItemsSem rest s'

theorem mem_descRange {n m j : Nat} : j ∈ descRange n m ↔ m ≤ j ∧ j ≤ n := by
  unfold descRange
  simp only [List.mem_map, List.mem_range]
  constructor
  · rintro ⟨i, hi, rfl⟩
    omega
  · rintro ⟨h1, h2⟩
    exact ⟨n - j, by omega, by omega⟩

theorem runLength_le_length (p : Char → Bool) (s : List Char) :
    runLength p s ≤ s.length := by
  induction s with
  | nil => simp [runLength]
  | cons c cs ih =>
    simp only [runLength, List.length_cons]
    split <;> omega

theorem all_take_runLength (p : Char → Bool) (s : List Char) {j : Nat}
    (hj : j ≤ runLength p s) : ∀ c ∈ s.take j, p c = true := by
  induction s generalizing j with
  | nil => simp
  | cons c cs ih =>
    cases j with
    | zero => simp
    | succ j' =>
      simp only [runLength] at hj
      split at hj
      · next hc =>
        intro d hd
        simp only [List.take_succ_cons, List.mem_cons] at hd
        rcases hd with rfl | hd
        · exact hc
        · exact ih (by omega) d hd
      · omega

theorem runLength_append_of_all (p : Char → Bool) {u : List Char}
    (t : List Char) (hu : ∀ c ∈ u, p c = true) :
    u.length ≤ runLength p (u ++ t) := by
  induction u with
  | nil => simp
  | cons c cs ih =>
    have hc : p c = true := hu c (by simp)
    simp only [List.cons_append, runLength, hc, if_true, List.length_cons, List.append_eq]
    have := ih (fun d hd => hu d (by simp [hd]))
    omega

theorem firstSome_isSome {α : Type} (f : Nat → Option α) (l : List Nat) :
    (firstSome f l).isSome = true ↔ ∃ j ∈ l, (f j).isSome = true := by
  induction l with
  | nil => simp [firstSome]
  | cons k ks ih =>
    simp only [firstSome]
    cases hk : f k with
    | some r => simp [hk]
    | none => simp [hk, ih]

theorem matchTail_iff (items : List RItem) (s : List Char) :
    matchTail items s = true ↔ ItemsSem items s := by
  induction items generalizing s with
  | nil =>
    cases s <;> simp [matchTail, ItemsSem]
  | cons it rest ih =>
    cases it with
    | lit c =>
      cases s with
      | nil => simp [matchTail, ItemsSem]
      | cons x xs =>
        simp only [matchTail, ItemsSem, Bool.and_eq_true, beq_iff_eq, ih]
        constructor
        · rintro ⟨rfl, h⟩
          exact ⟨xs, rfl, h⟩
        · rintro ⟨s', hs, h⟩
          cases hs
          exact ⟨rfl, h⟩
    | cls p m =>
      simp only [matchTail, ItemsSem, List.any_eq_true, ih]
      constructor
      · rintro ⟨j, hj, hm⟩
        rw [mem_descRange] at hj
        refine ⟨s.take j, s.drop j, ?_, ?_, (s.take_append_drop j).symm, hm⟩
        · rw [List.length_take]
          have := runLength_le_length p s
          omega
        · exact all_take_runLength p s hj.2
      · rintro ⟨u, s', hm, hall, rfl, h⟩
        refine ⟨u.length, ?_, ?_⟩
        · rw [mem_descRange]
          exact ⟨hm, runLength_append_of_all p s' hall⟩
        · rwa [List.drop_left]
    | anyStar =>
      simp only [matchTail, ItemsSem, List.any_eq_true, ih]
      constructor
      · rintro ⟨j, hj, hm⟩
        exact ⟨s.take j, s.drop j, (s.take_append_drop j).symm, hm⟩
      · rintro ⟨u, s', rfl, h⟩
        refine ⟨u.length, ?_, ?_⟩
        · rw [mem_descRange]
          simp [List.length_append]
        · rwa [List.drop_left]
    | group =>
      simp only [matchTail, ItemsSem, List.any_eq_true, ih]
      constructor
      · rintro ⟨j, hj, hm⟩
        exact ⟨s.take j, s.drop j, (s.take_append_drop j).symm, hm⟩
      · rintro ⟨u, s', rfl, h⟩
        refine ⟨u.length, ?_, ?_⟩
        · rw [mem_descRange]
          simp [List.length_append]
        · rwa [List.drop_left]

theorem matchCap_isSome_iff (items : List RItem) (s : List Char)
    (hg : RItem.group ∈ items) :
    (matchCap items s).isSome = true ↔ ItemsSem items s := by
  induction items generalizing s with
  | nil => cases hg
  | cons it rest ih =>
    cases it with
    | lit c =>
      have hg' : RItem.group ∈ rest := by
        rcases List.mem_cons.mp hg with h | h
        · cases h
        · exact h
      cases s with
      | nil => simp [matchCap, ItemsSem]
      | cons x xs =>
        simp only [matchCap, ItemsSem]
        split
        · next hx =>
          rw [beq_iff_eq] at hx
          subst hx
          rw [ih _ hg']
          constructor
          · intro h
            exact ⟨xs, rfl, h⟩
          · rintro ⟨s', hs, h⟩
            cases hs
            exact h
        · next hx =>
          rw [beq_iff_eq] at hx
          apply iff_of_false
          · simp
          · rintro ⟨s', hs, -⟩
            apply hx
            injection hs
    | cls p m =>
      have hg' : RItem.group ∈ rest := by
        rcases List.mem_cons.mp hg with h | h
        · cases h
        · exact h
      simp only [matchCap, ItemsSem, firstSome_isSome]
      constructor
      · rintro ⟨j, hj, hm⟩
        rw [mem_descRange] at hj
        rw [ih _ hg'] at hm
        refine ⟨s.take j, s.drop j, ?_, ?_, (s.take_append_drop j).symm, hm⟩
        · rw [List.length_take]
          have := runLength_le_length p s
          omega
        · exact all_take_runLength p s hj.2
      · rintro ⟨u, s', hm, hall, rfl, h⟩
        refine ⟨u.length, ?_, ?_⟩
        · rw [mem_descRange]
          exact ⟨hm, runLength_append_of_all p s' hall⟩
        · rw [List.drop_left, ih _ hg']
          exact h
    | anyStar =>
      have hg' : RItem.group ∈ rest := by
        rcases List.mem_cons.mp hg with h | h
        · cases h
        · exact h
      simp only [matchCap, ItemsSem, firstSome_isSome]
      constructor
      · rintro ⟨j, hj, hm⟩
        rw [ih _ hg'] at hm
        exact ⟨s.take j, s.drop j, (s.take_append_drop j).symm, hm⟩
      · rintro ⟨u, s', rfl, h⟩
        refine ⟨u.length, ?_, ?_⟩
        · rw [mem_descRange]
          simp [List.length_append]
        · rw [List.drop_left, ih _ hg']
          exact h
    | group =>
      simp only [matchCap, ItemsSem, firstSome_isSome]
      constructor
      · rintro ⟨j, hj, hm⟩
        split at hm
        · next hmt =>
          rw [matchTail_iff] at hmt
          exact ⟨s.take j, s.drop j, (s.take_append_drop j).symm, hmt⟩
        · simp at hm
      · rintro ⟨u, s', rfl, h⟩
        refine ⟨u.length, ?_, ?_⟩
        · rw [mem_descRange]
          simp [List.length_append]
        · rw [List.drop_left]
          rw [← matchTail_iff] at h
          simp [h]

/-! ## Flat characterizations of the two patterns -/

theorem underscore_all_iff {u : List Char} :
    (∀ c ∈ u, underscore c = true) ↔ u = List.replicate u.length '_' := by
  rw [List.eq_replicate_length]
  constructor
  · intro h c hc
    have := h c hc
    rwa [underscore, beq_iff_eq] at this
  · intro h c hc
    rw [underscore, beq_iff_eq]
    exact h c hc

theorem equalsSign_all_iff {u : List Char} :
    (∀ c ∈ u, equalsSign c = true) ↔ u = List.replicate u.length '=' := by
  rw [List.eq_replicate_length]
  constructor
  · intro h c hc
    have := h c hc
    rwa [equalsSign, beq_iff_eq] at this
  · intro h c hc
    rw [equalsSign, beq_iff_eq]
    exact h c hc

/-- The test-start pattern matches exactly the lines of the shape:
arbitrary leading content, 7+ underscores, a space, arbitrary captured
content, a space, **10+** underscores, arbitrary trailing content. -/
theorem test_marker_isSome_iff (s : List Char) :
    (test_marker s).isSome = true ↔
      ∃ lead a name b t, 7 ≤ a ∧ 10 ≤ b ∧
        s = lead ++ (List.replicate a '_' ++
          (' ' :: (name ++ (' ' :: (List.replicate b '_' ++ t))))) := by
  rw [test_marker, matchCap_isSome_iff testItems s (by simp [testItems])]
  show ItemsSem testItems s ↔ _
  simp only [testItems, ItemsSem]
  constructor
  · rintro ⟨u1, s1, rfl, u2, s2, h7, hu2, rfl, s3, rfl, u4, s4, rfl, s5, rfl, u6, s6, h10,
      hu6, rfl, u7, s7, rfl, rfl⟩
    refine ⟨u1, u2.length, u4, u6.length, u7, h7, h10, ?_⟩
    rw [List.append_nil]
    rw [underscore_all_iff] at hu2 hu6
    rw [← hu2, ← hu6]
  · rintro ⟨lead, a, name, b, t, h7, h10, rfl⟩
    refine ⟨lead, _, rfl, List.replicate a '_', _, ?_, ?_, rfl, _, rfl, name, _, rfl, _, rfl,
      List.replicate b '_', t, ?_, ?_, rfl, t, [], (List.append_nil t).symm, rfl⟩
    · simpa using h7
    · intro c hc
      rw [List.eq_of_mem_replicate hc, underscore]
      rfl
    · simpa using h10
    · intro c hc
      rw [List.eq_of_mem_replicate hc, underscore]
      rfl

/-- The end-of-run pattern matches exactly the lines of the shape:
arbitrary leading content, 5+ equals signs, `' '`, arbitrary content,
`' in '`, arbitrary content, `' seconds '`, **4+** equals signs, arbitrary
trailing content. -/
theorem end_marker_iff (s : List Char) :
    end_marker s = true ↔
      ∃ lead a m1 m2 b t, 5 ≤ a ∧ 4 ≤ b ∧
        s = lead ++ (List.replicate a '=' ++
          (' ' :: (m1 ++ (' ' :: 'i' :: 'n' :: ' ' ::
            (m2 ++ (' ' :: 's' :: 'e' :: 'c' :: 'o' :: 'n' :: 'd' :: 's' :: ' ' ::
              (List.replicate b '=' ++ t))))))) := by
  rw [end_marker, matchTail_iff]
  show ItemsSem endItems s ↔ _
  simp only [endItems, ItemsSem]
  constructor
  · rintro ⟨u1, s1, rfl, u2, s2, h5, hu2, rfl, s3, rfl, u4, s4, rfl, s5, rfl, s6, rfl, s7,
      rfl, s8, rfl, u9, s9, rfl, s10, rfl, s11, rfl, s12, rfl, s13, rfl, s14, rfl, s15, rfl,
      s16, rfl, s17, rfl, s18, rfl, u19, s19, h4, hu19, rfl, u20, s20, rfl, rfl⟩
    refine ⟨u1, u2.length, u4, u9, u19.length, u20, h5, h4, ?_⟩
    rw [List.append_nil]
    rw [equalsSign_all_iff] at hu2 hu19
    rw [← hu2, ← hu19]
  · rintro ⟨lead, a, m1, m2, b, t, h5, h4, rfl⟩
    refine ⟨lead, _, rfl, List.replicate a '=', _, ?_, ?_, rfl, _, rfl, m1, _, rfl, _, rfl,
      _, rfl, _, rfl, _, rfl, m2, _, rfl, _, rfl, _, rfl, _, rfl, _, rfl, _, rfl, _, rfl,
      _, rfl, _, rfl, _, rfl, List.replicate b '=', t, ?_, ?_, rfl, t, [],
      (List.append_nil t).symm, rfl⟩
    · simpa using h5
    · intro c hc
      rw [List.eq_of_mem_replicate hc, equalsSign]
      rfl
    · simpa using h4
    · intro c hc
      rw [List.eq_of_mem_replicate hc, equalsSign]
      rfl

/-! ## Structure of `parse_log` runs -/

/-- A line that triggers none of the scan-loop branches: not a test-start
match, not a banner, not an end-of-run match. -/
def plainLine (l : String) : Prop :=
  test_marker l.data = none ∧ l ≠ failure_marker_str ∧ l ≠ error_marker_str ∧
    end_marker l.data = false

/-- One per-test block of a failure section: its marker line, the name the
marker captures, and the content lines that follow it. -/
structure Seg where
  marker : String
  name : String
  content : List String

/-- The lines a list of blocks contributes to the log. -/
def sectionBody : List Seg → List String
  | [] => []
  | x :: rest => x.marker :: (x.content ++ sectionBody rest)

/-- A well-formed block: the marker line captures exactly `name`, the name
is nonempty, and the content lines are plain. -/
def segOk (x : Seg) : Prop :=
  test_marker x.marker.data = some x.name.data ∧ x.name ≠ "" ∧
    ∀ l ∈ x.content, plainLine l

theorem findIdx?_banner_hit (pre tail : List String) (b : String)
    (hpre : ∀ l ∈ pre, l ≠ b) :
    List.findIdx? (fun l => l == b) (pre ++ b :: tail) = some pre.length := by
  rw [List.findIdx?_append, List.findIdx?_eq_none_iff.mpr
    (fun x hx => beq_eq_false_iff_ne.mpr (hpre x hx))]
  simp [List.findIdx?_cons]

theorem findIdx?_banner_miss (pre tail : List String) (b b' : String) (hbb : b ≠ b')
    (hpre : ∀ l ∈ pre, l ≠ b') :
    List.findIdx? (fun l => l == b') (pre ++ b :: tail) =
      (List.findIdx? (fun l => l == b') tail).map (fun j => j + (pre.length + 1)) := by
  rw [List.findIdx?_append, List.findIdx?_eq_none_iff.mpr
    (fun x hx => beq_eq_false_iff_ne.mpr (hpre x hx))]
  rw [List.findIdx?_cons, if_neg (by simp [hbb]), List.findIdx?_succ]
  cases List.findIdx? (fun l => l == b') tail with
  | none => rfl
  | some j => simp [Option.or]; omega

theorem error_ne_failure : error_marker_str ≠ failure_marker_str := by decide

/-- Unfolding of `parse_log`. -/
theorem parse_log_eq (id_ : Nat) (lines : List String) :
    parse_log id_ lines =
      match listMin (List.filterMap (fun m => List.findIdx? (fun l => l == m) lines)
          [error_marker_str, failure_marker_str]) with
      | none => ⟨[], some ("ERROR: failed to parse job " ++ toString id_)⟩
      | some i => ⟨scanLoop (lines.drop (i + 1)) [] none, none⟩ := rfl

/-- With no banner in `pre`, scanning starts right after the banner that
terminates `pre`, whichever of the two it is. -/
theorem parse_log_start (id_ : Nat) (pre tail : List String) (b : String)
    (hb : b = error_marker_str ∨ b = failure_marker_str)
    (hpre : ∀ l ∈ pre, l ≠ error_marker_str ∧ l ≠ failure_marker_str) :
    parse_log id_ (pre ++ b :: tail) = ⟨scanLoop tail [] none, none⟩ := by
  have hdrop : (pre ++ b :: tail).drop (pre.length + 1) = tail := by
    rw [show pre ++ b :: tail = (pre ++ [b]) ++ tail by simp]
    exact List.drop_left' (by simp)
  rw [parse_log_eq]
  rcases hb with rfl | rfl
  · have hE := findIdx?_banner_hit pre tail error_marker_str (fun l hl => (hpre l hl).1)
    have hF := findIdx?_banner_miss pre tail error_marker_str failure_marker_str
      error_ne_failure (fun l hl => (hpre l hl).2)
    cases hT : List.findIdx? (fun l => l == failure_marker_str) tail with
    | none =>
      rw [hT] at hF
      simp only [Option.map_none'] at hF
      simp only [List.filterMap_cons, List.filterMap_nil, hE, hF, listMin, List.foldl,
        hdrop]
    | some j =>
      rw [hT] at hF
      simp only [Option.map_some'] at hF
      have hmin : Nat.min pre.length (j + (pre.length + 1)) = pre.length :=
        Nat.min_eq_left (by omega)
      simp only [List.filterMap_cons, List.filterMap_nil, hE, hF, listMin, List.foldl,
        hmin, hdrop]
  · have hE := findIdx?_banner_miss pre tail failure_marker_str error_marker_str
      (Ne.symm error_ne_failure) (fun l hl => (hpre l hl).1)
    have hF := findIdx?_banner_hit pre tail failure_marker_str (fun l hl => (hpre l hl).2)
    cases hT : List.findIdx? (fun l => l == error_marker_str) tail with
    | none =>
      rw [hT] at hE
      simp only [Option.map_none'] at hE
      simp only [List.filterMap_cons, List.filterMap_nil, hE, hF, listMin, List.foldl,
        hdrop]
    | some j =>
      rw [hT] at hE
      simp only [Option.map_some'] at hE
      have hmin : Nat.min (j + (pre.length + 1)) pre.length = pre.length :=
        Nat.min_eq_right (by omega)
      simp only [List.filterMap_cons, List.filterMap_nil, hE, hF, listMin, List.foldl,
        hmin, hdrop]

theorem scanLoop_plain_cons (l : String) (rest : List String) (acc) (cur : Option String)
    (hl : plainLine l) (hcur : cur = none ∨ cur = some "") :
    scanLoop (l :: rest) acc cur = scanLoop rest acc cur := by
  obtain ⟨h1, h2, h3, h4⟩ := hl
  rcases hcur with rfl | rfl <;>
    simp [scanLoop, h1, h4, beq_eq_false_iff_ne.mpr h2, beq_eq_false_iff_ne.mpr h3]

theorem scanLoop_plain_skip (g rest : List String) (acc) (cur : Option String)
    (hg : ∀ l ∈ g, plainLine l) (hcur : cur = none ∨ cur = some "") :
    scanLoop (g ++ rest) acc cur = scanLoop rest acc cur := by
  induction g with
  | nil => rfl
  | cons l g' ih =>
    rw [List.cons_append, scanLoop_plain_cons l _ _ _ (hg l (by simp)) hcur]
    exact ih (fun x hx => hg x (by simp [hx]))

theorem scanLoop_banner_cons (l : String) (rest : List String) (acc) (cur : Option String)
    (hl : l = failure_marker_str ∨ l = error_marker_str)
    (hnm : test_marker l.data = none) :
    scanLoop (l :: rest) acc cur = scanLoop rest acc none := by
  rcases hl with rfl | rfl <;> simp [scanLoop, hnm]

theorem scanLoop_end_cons (l : String) (rest : List String) (acc) (cur : Option String)
    (h1 : end_marker l.data = true) (h2 : test_marker l.data = none)
    (h3 : l ≠ failure_marker_str) (h4 : l ≠ error_marker_str) :
    scanLoop (l :: rest) acc cur = acc := by
  simp [scanLoop, h1, h2, beq_eq_false_iff_ne.mpr h3, beq_eq_false_iff_ne.mpr h4]

theorem scanLoop_marker_cons (l : String) (rest : List String) (acc) (cur : Option String)
    (n : String) (h : test_marker l.data = some n.data) :
    scanLoop (l :: rest) acc cur = scanLoop rest (dictSet acc n []) (some n) := by
  simp only [scanLoop, h]

theorem scanLoop_append_cons (l : String) (rest : List String) (acc) (t : String)
    (hl : plainLine l) (ht : t ≠ "") :
    scanLoop (l :: rest) acc (some t) = scanLoop rest (dictAppend acc t l) (some t) := by
  obtain ⟨h1, h2, h3, h4⟩ := hl
  simp only [scanLoop, h1, h4, beq_eq_false_iff_ne.mpr h2, beq_eq_false_iff_ne.mpr h3,
    Bool.or_self, Bool.false_eq_true, if_false, ne_eq, ht, not_false_iff, if_true]

theorem dictSet_fresh (d : List (String × List String)) (k : String) (v : List String)
    (h : ∀ p ∈ d, p.1 ≠ k) : dictSet d k v = d ++ [(k, v)] := by
  unfold dictSet
  rw [if_neg]
  simp only [List.any_eq_true, not_exists, not_and]
  intro p hp
  simp [h p hp]

theorem dictAppend_fresh_last (d : List (String × List String)) (k : String)
    (v : List String) (x : String) (h : ∀ p ∈ d, p.1 ≠ k) :
    dictAppend (d ++ [(k, v)]) k x = d ++ [(k, v ++ [x])] := by
  unfold dictAppend
  rw [List.map_append]
  congr 1
  · rw [List.map_congr_left (fun p hp => by rw [if_neg (by simp [h p hp])])]
    exact List.map_id d
  · simp

theorem scanLoop_content (c : List String) (rest : List String)
    (d : List (String × List String)) (n : String) (v : List String)
    (hd : ∀ p ∈ d, p.1 ≠ n) (hne : n ≠ "") (hc : ∀ l ∈ c, plainLine l) :
    scanLoop (c ++ rest) (d ++ [(n, v)]) (some n) =
      scanLoop rest (d ++ [(n, v ++ c)]) (some n) := by
  induction c generalizing v with
  | nil => simp
  | cons l c' ih =>
    have hl := hc l (by simp)
    obtain ⟨h1, h2, h3, h4⟩ := hl
    rw [List.cons_append]
    rw [show scanLoop (l :: (c' ++ rest)) (d ++ [(n, v)]) (some n) =
        scanLoop (c' ++ rest) (dictAppend (d ++ [(n, v)]) n l) (some n) by
      simp [scanLoop, h1, h4, beq_eq_false_iff_ne.mpr h2, beq_eq_false_iff_ne.mpr h3, hne]]
    rw [dictAppend_fresh_last d n v l hd]
    rw [ih (v ++ [l]) (fun x hx => hc x (by simp [hx]))]
    simp

/-- Scanning a section body followed by the summary line: each block
contributes its `(name, content)` entry, in order, and scanning stops at
the summary line. -/
theorem scanLoop_section (seg : List Seg) (endLine : String) (post : List String)
    (acc : List (String × List String)) (cur : Option String)
    (hseg : ∀ x ∈ seg, segOk x)
    (hnodup : (seg.map Seg.name).Nodup)
    (hfresh : ∀ x ∈ seg, ∀ p ∈ acc, p.1 ≠ x.name)
    (hend : test_marker endLine.data = none ∧ endLine ≠ failure_marker_str ∧
      endLine ≠ error_marker_str ∧ end_marker endLine.data = true) :
    scanLoop (sectionBody seg ++ endLine :: post) acc cur =
      acc ++ seg.map (fun x => (x.name, x.content)) := by
  induction seg generalizing acc cur with
  | nil =>
    rw [sectionBody, List.nil_append,
      scanLoop_end_cons endLine post acc cur hend.2.2.2 hend.1 hend.2.1 hend.2.2.1]
    simp
  | cons x rest ih =>
    obtain ⟨hm, hne, hcont⟩ := hseg x (by simp)
    rw [sectionBody, List.cons_append]
    rw [show scanLoop (x.marker :: ((x.content ++ sectionBody rest) ++ endLine :: post))
          acc cur =
        scanLoop ((x.content ++ sectionBody rest) ++ endLine :: post)
          (dictSet acc x.name []) (some x.name) by
      simp [scanLoop, hm]]
    rw [dictSet_fresh acc x.name [] (fun p hp => hfresh x (by simp) p hp)]
    rw [List.append_assoc]
    rw [scanLoop_content x.content _ acc x.name []
      (fun p hp => hfresh x (by simp) p hp) hne hcont]
    rw [List.nil_append]
    have hx_notin : x.name ∉ rest.map Seg.name := by
      have := hnodup
      simp only [List.map_cons, List.nodup_cons] at this
      exact this.1
    have h1 : ∀ y ∈ rest, segOk y := fun y hy => hseg y (by simp [hy])
    have h2 : (rest.map Seg.name).Nodup := by
      have := hnodup
      simp only [List.map_cons, List.nodup_cons] at this
      exact this.2
    have h3 : ∀ y ∈ rest, ∀ p ∈ acc ++ [(x.name, x.content)], p.1 ≠ y.name := by
      intro y hy p hp
      rcases List.mem_append.mp hp with hp | hp
      · exact hfresh y (by simp [hy]) p hp
      · simp only [List.mem_singleton] at hp
        subst hp
        show x.name ≠ y.name
        intro hc
        exact hx_notin (by rw [hc]; exact List.mem_map_of_mem Seg.name hy)
    rw [ih (acc ++ [(x.name, x.content)]) (some x.name) h1 h2 h3]
    simp

theorem test_marker_failure_none : test_marker failure_marker_str.data = none := by decide

theorem test_marker_error_none : test_marker error_marker_str.data = none := by decide

/-- The test-start shape exactly as the claim words it: 7+ underscores, one
space, a captured name, one space, 9+ underscores, optional trailing
content (no leading content). -/
def claimTestShape (s : List Char) : Prop :=
  ∃ a name b t, 7 ≤ a ∧ 9 ≤ b ∧
    s = List.replicate a '_' ++ (' ' :: (name ++ (' ' :: (List.replicate b '_' ++ t))))

/-- The end-of-run shape exactly as the claim words it: 5+ equals signs,
then text containing "in" and "seconds", then 5+ equals signs. -/
def claimEndShape (s : List Char) : Prop :=
  ∃ a mid b, 5 ≤ a ∧ 5 ≤ b ∧
    s = List.replicate a '=' ++ (mid ++ List.replicate b '=') ∧
    ('i' :: 'n' :: []) <:+: mid ∧ ('s' :: 'e' :: 'c' :: 'o' :: 'n' :: 'd' :: 's' :: []) <:+: mid

end Travisfailed

namespace Travisfailed

/-- C1: a log whose failure section is a FAILURES or ERRORS banner followed
by test-start marker lines with distinct (nonempty) captured names,
interleaved content lines, and a terminating summary line, parses to
exactly one entry per marker, keyed in marker order, each holding exactly
the lines strictly between its marker and the next marker or the summary
line. -/
theorem claim_C1 (id_ : Nat) (b : String) (pre g0 : List String) (seg : List Seg)
    (endLine : String) (post : List String)
    (hb : b = error_marker_str ∨ b = failure_marker_str)
    (hpre : ∀ l ∈ pre, l ≠ error_marker_str ∧ l ≠ failure_marker_str)
    (hg0 : ∀ l ∈ g0, plainLine l)
    (hseg : ∀ x ∈ seg, segOk x)
    (hnodup : (seg.map Seg.name).Nodup)
    (hend : test_marker endLine.data = none ∧ endLine ≠ failure_marker_str ∧
      endLine ≠ error_marker_str ∧ end_marker endLine.data = true) :
    parse_log id_ (pre ++ b :: (g0 ++ (sectionBody seg ++ endLine :: post))) =
      ⟨seg.map (fun x => (x.name, x.content)), none⟩ := by
  rw [parse_log_start id_ pre _ b hb hpre]
  rw [scanLoop_plain_skip g0 _ [] none hg0 (Or.inl rfl)]
  rw [scanLoop_section seg endLine post [] none hseg hnodup (by simp) hend]
  simp

/-- Witness for C1: the spec's own example, a FAILURES banner, one marker
for `test_foo`, one content line, and a summary line. -/
theorem claim_C1_witness :
    parse_log 0 ([] ++ failure_marker_str ::
        ([] ++ (sectionBody [⟨"_______ test_foo __________", "test_foo", ["AssertionError"]⟩] ++
          "======== 3 passed in 1.2 seconds ========" :: []))) =
      ⟨[("test_foo", ["AssertionError"])], none⟩ :=
  claim_C1 0 failure_marker_str [] []
    [⟨"_______ test_foo __________", "test_foo", ["AssertionError"]⟩]
    "======== 3 passed in 1.2 seconds ========" []
    (Or.inr rfl) (by simp) (by simp)
    (by
      intro x hx
      simp only [List.mem_singleton] at hx
      subst hx
      exact ⟨by decide, by decide, by
        intro l hl
        simp only [List.mem_singleton] at hl
        subst hl
        exact ⟨by decide, by decide, by decide, by decide⟩⟩)
    (by simp)
    ⟨by decide, by decide, by decide, by decide⟩

/-- C2: with both banners present, scanning starts right after the
earliest one (by line index); a second banner met mid-scan resets the
current test to none without terminating the scan, and markers after it
are still captured. -/
theorem claim_C2 :
    (∀ (id_ : Nat) (lines : List String) (iE iF : Nat),
      List.findIdx? (fun l => l == error_marker_str) lines = some iE →
      List.findIdx? (fun l => l == failure_marker_str) lines = some iF →
      parse_log id_ lines = ⟨scanLoop (lines.drop (Nat.min iE iF + 1)) [] none, none⟩) ∧
    (∀ (l : String) (rest : List String) (acc : List (String × List String))
      (cur : Option String),
      (l = failure_marker_str ∨ l = error_marker_str) → test_marker l.data = none →
      scanLoop (l :: rest) acc cur = scanLoop rest acc none) ∧
    (∀ (id_ : Nat) (m1 c1 c2 m2 c3 n1 n2 : String),
      test_marker m1.data = some n1.data → test_marker m2.data = some n2.data →
      n1 ≠ "" → n2 ≠ "" → n1 ≠ n2 →
      plainLine c1 → plainLine c2 → plainLine c3 →
      parse_log id_ [error_marker_str, m1, c1, failure_marker_str, c2, m2, c3] =
        ⟨[(n1, [c1]), (n2, [c3])], none⟩) := by
  refine ⟨?_, scanLoop_banner_cons, ?_⟩
  · intro id_ lines iE iF hE hF
    rw [parse_log_eq]
    simp only [List.filterMap_cons, List.filterMap_nil, hE, hF, listMin, List.foldl]
  · intro id_ m1 c1 c2 m2 c3 n1 n2 hm1 hm2 hn1 hn2 hne hc1 hc2 hc3
    have hstart := parse_log_start id_ [] [m1, c1, failure_marker_str, c2, m2, c3]
      error_marker_str (Or.inl rfl) (by simp)
    rw [List.nil_append] at hstart
    rw [hstart]
    congr 1
    rw [scanLoop_marker_cons m1 _ [] none n1 hm1]
    rw [show dictSet [] n1 [] = [(n1, [])] by simp [dictSet]]
    rw [scanLoop_append_cons c1 _ _ n1 hc1 hn1]
    rw [show dictAppend [(n1, [])] n1 c1 = [(n1, [c1])] by simp [dictAppend]]
    rw [scanLoop_banner_cons _ _ _ _ (Or.inl rfl) test_marker_failure_none]
    rw [scanLoop_plain_cons _ _ _ _ hc2 (Or.inl rfl)]
    rw [scanLoop_marker_cons m2 _ _ none n2 hm2]
    rw [show dictSet [(n1, [c1])] n2 [] = [(n1, [c1]), (n2, [])] by
      simp [dictSet, hne]]
    rw [scanLoop_append_cons c3 _ _ n2 hc3 hn2]
    rw [show dictAppend [(n1, [c1]), (n2, [])] n2 c3 = [(n1, [c1]), (n2, [c3])] by
      simp [dictAppend, hne]]
    rfl

/-- Witness for C2: a concrete log with the ERRORS banner at index 0 and
the FAILURES banner mid-scan. -/
theorem claim_C2_witness :
    (parse_log 1 [error_marker_str, failure_marker_str] =
      ⟨scanLoop ([error_marker_str, failure_marker_str].drop (Nat.min 0 1 + 1)) [] none,
        none⟩) ∧
    (parse_log 3 [error_marker_str, "_______ a __________", "x1", failure_marker_str, "x2",
        "_______ bb __________", "x3"] =
      ⟨[("a", ["x1"]), ("bb", ["x3"])], none⟩) :=
  ⟨claim_C2.1 1 [error_marker_str, failure_marker_str] 0 1 (by decide) (by decide),
   claim_C2.2.2 3 "_______ a __________" "x1" "x2" "_______ bb __________" "x3" "a" "bb"
     (by decide) (by decide) (by decide) (by decide) (by decide)
     ⟨by decide, by decide, by decide, by decide⟩
     ⟨by decide, by decide, by decide, by decide⟩
     ⟨by decide, by decide, by decide, by decide⟩⟩

/-- C8: a log containing neither banner yields an empty mapping and a
parse-error notice naming the job id (the model is a total function: no
exception escapes). -/
theorem claim_C8 (id_ : Nat) (lines : List String)
    (hE : error_marker_str ∉ lines) (hF : failure_marker_str ∉ lines) :
    parse_log id_ lines = ⟨[], some ("ERROR: failed to parse job " ++ toString id_)⟩ := by
  rw [parse_log_eq]
  have hE' : List.findIdx? (fun l => l == error_marker_str) lines = none :=
    List.findIdx?_eq_none_iff.mpr
      (fun x hx => beq_eq_false_iff_ne.mpr (fun h => hE (h ▸ hx)))
  have hF' : List.findIdx? (fun l => l == failure_marker_str) lines = none :=
    List.findIdx?_eq_none_iff.mpr
      (fun x hx => beq_eq_false_iff_ne.mpr (fun h => hF (h ▸ hx)))
  simp only [List.filterMap_cons, List.filterMap_nil, hE', hF', listMin]

/-- Witness for C8: a one-line log with no banner. -/
theorem claim_C8_witness :
    parse_log 7 ["hello"] = ⟨[], some ("ERROR: failed to parse job " ++ toString 7)⟩ :=
  claim_C8 7 ["hello"] (by decide) (by decide)

/-- C10: a marker whose captured name is empty retains an entry keyed by
`""` with an empty buffer, and the following plain lines are discarded;
with a nonempty captured name the same following lines are appended. -/
theorem claim_C10 (id_ : Nat) (me mn : String) (n : String) (post : List String)
    (hme : test_marker me.data = some "".data)
    (hmn : test_marker mn.data = some n.data) (hn : n ≠ "")
    (hpost : ∀ l ∈ post, plainLine l) :
    (parse_log id_ (failure_marker_str :: me :: post) = ⟨[("", [])], none⟩) ∧
    (parse_log id_ (failure_marker_str :: mn :: post) = ⟨[(n, post)], none⟩) := by
  constructor
  · have hstart := parse_log_start id_ [] (me :: post) failure_marker_str (Or.inr rfl)
      (by simp)
    rw [List.nil_append] at hstart
    rw [hstart]
    congr 1
    rw [scanLoop_marker_cons me _ [] none "" hme]
    rw [show dictSet [] "" [] = [("", [])] by simp [dictSet]]
    calc scanLoop post [("", [])] (some "")
        = scanLoop (post ++ []) [("", [])] (some "") := by rw [List.append_nil]
      _ = scanLoop [] [("", [])] (some "") :=
          scanLoop_plain_skip post [] [("", [])] (some "") hpost (Or.inr rfl)
      _ = [("", [])] := rfl
  · have hstart := parse_log_start id_ [] (mn :: post) failure_marker_str (Or.inr rfl)
      (by simp)
    rw [List.nil_append] at hstart
    rw [hstart]
    congr 1
    rw [scanLoop_marker_cons mn _ [] none n hmn]
    rw [show dictSet [] n [] = [(n, [])] by simp [dictSet]]
    calc scanLoop post [(n, [])] (some n)
        = scanLoop (post ++ []) ([] ++ [(n, [])]) (some n) := by simp
      _ = scanLoop [] ([] ++ [(n, [] ++ post)]) (some n) :=
          scanLoop_content post [] [] n [] (by simp) hn hpost
      _ = [(n, post)] := by simp [scanLoop]

/-- Witness for C10: an empty-name marker discards the following line; a
nonempty-name marker captures it. -/
theorem claim_C10_witness :
    (parse_log 2 (failure_marker_str :: "_______  __________" :: ["AssertionError"]) =
      ⟨[("", [])], none⟩) ∧
    (parse_log 2 (failure_marker_str :: "_______ t __________" :: ["AssertionError"]) =
      ⟨[("t", ["AssertionError"])], none⟩) :=
  claim_C10 2 "_______  __________" "_______ t __________" "t" ["AssertionError"]
    (by decide) (by decide) (by decide)
    (by
      intro l hl
      simp only [List.mem_singleton] at hl
      subst hl
      exact ⟨by decide, by decide, by decide, by decide⟩)

theorem any_snd_beq_eq_mem (logs : List (Nat × String)) (lg : String) :
    (logs.any (fun p => p.2 == lg)) = decide (lg ∈ logs.map Prod.snd) := by
  induction logs with
  | nil => rfl
  | cons p ps ih =>
    simp only [List.any_cons, ih, List.map_cons, List.mem_cons]
    by_cases h : p.2 = lg
    · simp [h]
    · simp [beq_eq_false_iff_ne.mpr h, Ne.symm h]

/-- Without a cap, the retained blobs are exactly the first-occurrence
deduplication of the blob stream. -/
theorem collectLogs_none_map_snd (key : String)
    (fls : List (Nat × List (String × List String))) (logs : List (Nat × String)) :
    (collectLogs none key fls logs).map Prod.snd =
      dedupFirstAux (fls.filterMap (fun p => (dictGet p.2 key).map joinLines))
        (logs.map Prod.snd) := by
  induction fls generalizing logs with
  | nil => rfl
  | cons p rest ih =>
    obtain ⟨id_, fl⟩ := p
    cases hg : dictGet fl key with
    | none =>
      have hstep : collectLogs none key ((id_, fl) :: rest) logs =
          collectLogs none key rest logs := by
        simp only [collectLogs, hg]
      rw [hstep, ih logs, List.filterMap_cons_none (by rw [hg]; rfl)]
    | some ls =>
      rw [List.filterMap_cons_some (b := joinLines ls) (by rw [hg]; rfl)]
      by_cases hmem : joinLines ls ∈ logs.map Prod.snd
      · have hstep : collectLogs none key ((id_, fl) :: rest) logs =
            collectLogs none key rest logs := by
          simp only [collectLogs, hg]
          rw [if_pos (by rw [any_snd_beq_eq_mem]; exact decide_eq_true hmem)]
        rw [hstep, ih logs, dedupFirstAux, if_pos hmem]
      · have hstep : collectLogs none key ((id_, fl) :: rest) logs =
            collectLogs none key rest (logs ++ [(id_, joinLines ls)]) := by
          simp only [collectLogs, hg]
          rw [if_neg (by rw [any_snd_beq_eq_mem]; simp [hmem])]
        rw [hstep, ih (logs ++ [(id_, joinLines ls)]), dedupFirstAux, if_neg hmem,
          List.map_append]
        rfl

theorem dedupFirstAux_nodup (bs : List String) (acc : List String) (h : acc.Nodup) :
    (dedupFirstAux bs acc).Nodup := by
  induction bs generalizing acc with
  | nil => exact h
  | cons b bs' ih =>
    rw [dedupFirstAux]
    by_cases hmem : b ∈ acc
    · rw [if_pos hmem]
      exact ih acc h
    · rw [if_neg hmem]
      exact ih (acc ++ [b]) (by simp [List.nodup_append, h, hmem])

theorem blobsFor_eq (jobs : List (Nat × Option (List String))) (key : String) :
    (jobs.map (fun p => (p.1, failedLogsOf p.1 p.2))).filterMap
        (fun p => (dictGet p.2 key).map joinLines) = blobsFor jobs key := by
  rw [List.filterMap_map]
  rfl

/-! ## Sorting lemmas for the final reports -/

theorem mem_stableInsert {α : Type} {le : α → α → Bool} {a x : α} {l : List α} :
    x ∈ stableInsert le a l ↔ x = a ∨ x ∈ l := by
  induction l with
  | nil => simp [stableInsert]
  | cons b t ih =>
    rw [stableInsert]
    by_cases h : le b a = true
    · rw [if_pos h]
      simp only [List.mem_cons, ih]
      tauto
    · rw [if_neg h]
      simp [List.mem_cons]

theorem stableInsert_pairwise {α : Type} (le : α → α → Bool)
    (htot : ∀ x y, le x y = true ∨ le y x = true)
    (htrans : ∀ x y z, le x y = true → le y z = true → le x z = true)
    (a : α) (l : List α) (hl : l.Pairwise (fun x y => le x y = true)) :
    (stableInsert le a l).Pairwise (fun x y => le x y = true) := by
  induction l with
  | nil => simp [stableInsert]
  | cons b t ih =>
    rw [List.pairwise_cons] at hl
    obtain ⟨hb, ht⟩ := hl
    rw [stableInsert]
    by_cases h : le b a = true
    · rw [if_pos h, List.pairwise_cons]
      refine ⟨?_, ih ht⟩
      intro y hy
      rcases mem_stableInsert.mp hy with rfl | hy
      · exact h
      · exact hb y hy
    · rw [if_neg h]
      have hab : le a b = true := by
        rcases htot a b with h' | h'
        · exact h'
        · exact absurd h' h
      rw [List.pairwise_cons]
      constructor
      · intro y hy
        rcases List.mem_cons.mp hy with rfl | hy
        · exact hab
        · exact htrans a b y hab (hb y hy)
      · exact List.pairwise_cons.mpr ⟨hb, ht⟩

theorem stableSort_pairwise {α : Type} (le : α → α → Bool)
    (htot : ∀ x y, le x y = true ∨ le y x = true)
    (htrans : ∀ x y z, le x y = true → le y z = true → le x z = true)
    (l : List α) : (stableSort le l).Pairwise (fun x y => le x y = true) := by
  suffices h : ∀ (l' : List α) (acc : List α), acc.Pairwise (fun x y => le x y = true) →
      ((l'.foldl (fun acc a => stableInsert le a acc) acc).Pairwise
        (fun x y => le x y = true)) by
    exact h l [] (by simp)
  intro l'
  induction l' with
  | nil => intro acc h; exact h
  | cons a t ih =>
    intro acc h
    rw [List.foldl_cons]
    exact ih _ (stableInsert_pairwise le htot htrans a acc h)

theorem stableInsert_perm {α : Type} (le : α → α → Bool) (a : α) (l : List α) :
    List.Perm (stableInsert le a l) (a :: l) := by
  induction l with
  | nil => exact List.Perm.refl _
  | cons b t ih =>
    rw [stableInsert]
    by_cases h : le b a = true
    · rw [if_pos h]
      exact (List.Perm.cons b ih).trans (List.Perm.swap a b t)
    · rw [if_neg h]

theorem stableSort_perm {α : Type} (le : α → α → Bool) (l : List α) :
    List.Perm (stableSort le l) l := by
  suffices h : ∀ (l' : List α) (acc : List α),
      List.Perm (l'.foldl (fun acc a => stableInsert le a acc) acc) (acc ++ l') by
    have := h l []
    simpa using this
  intro l'
  induction l' with
  | nil => intro acc; simp
  | cons a t ih =>
    intro acc
    rw [List.foldl_cons]
    have h1 := ih (stableInsert le a acc)
    have h2 : List.Perm (stableInsert le a acc ++ t) ((a :: acc) ++ t) :=
      List.Perm.append_right t (stableInsert_perm le a acc)
    have h3 : List.Perm ((a :: acc) ++ t) (acc ++ a :: t) := by
      show List.Perm (a :: (acc ++ t)) (acc ++ a :: t)
      exact List.perm_middle.symm
    exact (h1.trans h2).trans h3

theorem stableInsert_desc (a : String × Nat) (l : List (String × Nat))
    (hl : l.Pairwise (fun x y => y.2 < x.2 ∨ (x.2 = y.2 ∧ x.1 < y.1)))
    (hname : ∀ x ∈ l, x.2 = a.2 → x.1 < a.1) :
    (stableInsert countDescLe a l).Pairwise
      (fun x y => y.2 < x.2 ∨ (x.2 = y.2 ∧ x.1 < y.1)) := by
  induction l with
  | nil => simp [stableInsert]
  | cons b t ih =>
    rw [List.pairwise_cons] at hl
    obtain ⟨hb, ht⟩ := hl
    rw [stableInsert]
    by_cases h : countDescLe b a = true
    · rw [if_pos h, List.pairwise_cons]
      refine ⟨?_, ih ht (fun x hx => hname x (by simp [hx]))⟩
      intro y hy
      rcases mem_stableInsert.mp hy with rfl | hy
      · have hba : y.2 ≤ b.2 := by simpa [countDescLe] using h
        rcases lt_or_eq_of_le hba with hlt | heq
        · exact Or.inl hlt
        · exact Or.inr ⟨heq.symm, hname b (by simp) heq.symm⟩
      · exact hb y hy
    · rw [if_neg h]
      have hba : b.2 < a.2 := by
        simp only [countDescLe, decide_eq_true_eq] at h
        omega
      rw [List.pairwise_cons]
      constructor
      · intro y hy
        rcases List.mem_cons.mp hy with rfl | hy
        · exact Or.inl hba
        · rcases hb y hy with h' | h'
          · exact Or.inl (lt_trans h' hba)
          · exact Or.inl (h'.1 ▸ hba)
      · exact List.pairwise_cons.mpr ⟨hb, ht⟩

theorem foldl_desc (l : List (String × Nat)) :
    ∀ acc : List (String × Nat),
      acc.Pairwise (fun x y => y.2 < x.2 ∨ (x.2 = y.2 ∧ x.1 < y.1)) →
      l.Pairwise (fun x y => x.1 < y.1) →
      (∀ x ∈ acc, ∀ y ∈ l, x.1 < y.1) →
      (l.foldl (fun acc a => stableInsert countDescLe a acc) acc).Pairwise
        (fun x y => y.2 < x.2 ∨ (x.2 = y.2 ∧ x.1 < y.1)) := by
  induction l with
  | nil => intro acc h _ _; exact h
  | cons a t ih =>
    intro acc hacc hl hcross
    rw [List.foldl_cons]
    rw [List.pairwise_cons] at hl
    apply ih
    · exact stableInsert_desc a acc hacc (fun x hx _ => hcross x hx a (by simp))
    · exact hl.2
    · intro x hx y hy
      rcases mem_stableInsert.mp hx with rfl | hx
      · exact hl.1 y hy
      · exact hcross x hx y (by simp [hy])

theorem counterAdd_keys (c : List (String × Nat)) (t : String) :
    (counterAdd c t).map Prod.fst =
      if c.any (fun p => p.1 == t) then c.map Prod.fst else c.map Prod.fst ++ [t] := by
  unfold counterAdd
  by_cases h : c.any (fun p => p.1 == t) = true
  · rw [if_pos h, if_pos h, List.map_map]
    apply List.map_congr_left
    intro p hp
    show (if p.1 == t then (p.1, p.2 + 1) else p).1 = p.1
    split <;> rfl
  · rw [if_neg h, if_neg h, List.map_append]
    rfl

theorem counterOf_keys_nodup (stream : List String) :
    ((counterOf stream).map Prod.fst).Nodup := by
  suffices h : ∀ (s : List String) (c : List (String × Nat)), (c.map Prod.fst).Nodup →
      ((s.foldl counterAdd c).map Prod.fst).Nodup by
    exact h stream [] (by simp)
  intro s
  induction s with
  | nil => intro c h; exact h
  | cons t ts ih =>
    intro c h
    rw [List.foldl_cons]
    apply ih
    rw [counterAdd_keys]
    by_cases hmem : c.any (fun p => p.1 == t) = true
    · rw [if_pos hmem]
      exact h
    · rw [if_neg hmem]
      have ht : t ∉ c.map Prod.fst := by
        intro hc
        rcases List.mem_map.mp hc with ⟨p, hp, hpt⟩
        have : c.any (fun p => p.1 == t) = true := List.any_eq_true.mpr ⟨p, hp, by simp [hpt]⟩
        exact absurd this hmem
      simp [List.nodup_append, h, ht]

theorem pairLe_total (a b : String × Nat) : pairLe a b = true ∨ pairLe b a = true := by
  unfold pairLe
  by_cases h : a.1 = b.1
  · rw [if_pos (beq_iff_eq.mpr h), if_pos (beq_iff_eq.mpr h.symm)]
    rcases Nat.le_total a.2 b.2 with h' | h'
    · exact Or.inl (decide_eq_true h')
    · exact Or.inr (decide_eq_true h')
  · rw [if_neg (by simp [h]), if_neg (by simp [Ne.symm h])]
    rcases lt_or_gt_of_ne h with h' | h'
    · exact Or.inl (decide_eq_true h')
    · exact Or.inr (decide_eq_true h')

theorem pairLe_trans (a b c : String × Nat) (h1 : pairLe a b = true)
    (h2 : pairLe b c = true) : pairLe a c = true := by
  unfold pairLe at h1 h2 ⊢
  by_cases hab : a.1 = b.1 <;> by_cases hbc : b.1 = c.1
  · rw [if_pos (beq_iff_eq.mpr hab)] at h1
    rw [if_pos (beq_iff_eq.mpr hbc)] at h2
    rw [if_pos (beq_iff_eq.mpr (hab.trans hbc))]
    exact decide_eq_true (Nat.le_trans (of_decide_eq_true h1) (of_decide_eq_true h2))
  · rw [if_neg (by simp [hbc])] at h2
    have hac : a.1 ≠ c.1 := by rw [hab]; exact hbc
    rw [if_neg (by simp [hac])]
    exact decide_eq_true (by rw [hab]; exact of_decide_eq_true h2)
  · rw [if_neg (by simp [hab])] at h1
    have hac : a.1 ≠ c.1 := by rw [← hbc]; exact hab
    rw [if_neg (by simp [hac])]
    exact decide_eq_true (by rw [← hbc]; exact of_decide_eq_true h1)
  · rw [if_neg (by simp [hab])] at h1
    rw [if_neg (by simp [hbc])] at h2
    have h1' := of_decide_eq_true h1
    have h2' := of_decide_eq_true h2
    have hac : a.1 ≠ c.1 := ne_of_lt (lt_trans h1' h2')
    rw [if_neg (by simp [hac])]
    exact decide_eq_true (lt_trans h1' h2')

/-- C5 (amended): `grep_log_for_tests` returns exactly one identifier per
line that contains a marker substring and starts with the prefix, in log
order with duplicates retained; the identifier is the part of the line up
to the first **space character** (Python `line.split(' ', 1)[0]`), not up
to the first whitespace character. -/
theorem claim_C5 (log_lines : List String) (test_path : String) (markers : List String) :
    grep_log_for_tests log_lines test_path markers =
      (log_lines.filter (fun line =>
        markers.any (fun m => decide (m.data <:+: line.data)) &&
          decide (test_path.data <+: line.data))).map splitTok := by
  induction log_lines with
  | nil => rfl
  | cons l ls ih =>
    rw [grep_log_for_tests]
    rw [grep_log_for_tests] at ih
    by_cases h1 : (markers.any (fun m => decide (m.data <:+: l.data))) = true
    · by_cases h2 : test_path.data <+: l.data
      · rw [List.filterMap_cons_some (b := splitTok l) (by rw [if_pos h1, if_pos h2]),
          List.filter_cons_of_pos (by rw [h1, decide_eq_true h2]; rfl),
          List.map_cons, ih]
      · rw [List.filterMap_cons_none (by rw [if_pos h1, if_neg h2]),
          List.filter_cons_of_neg (by rw [h1, decide_eq_false h2]; simp),
          ih]
    · rw [List.filterMap_cons_none (by rw [if_neg h1]),
        List.filter_cons_of_neg (by
          simp only [Bool.not_eq_true] at h1
          rw [h1]
          simp),
        ih]

/-- The claim's notion of identifier: the first whitespace-delimited token
of the line (leading whitespace skipped, token ends at any whitespace). -/
def specFirstWhitespaceToken (line : String) : String :=
  ⟨(line.data.dropWhile (fun c => c.isWhitespace)).takeWhile (fun c => !c.isWhitespace)⟩

/-- Counterexample for C5 as stated: on a hit line containing a tab before
the first space, the code's identifier keeps the tab and everything after
it, which is not the first whitespace-delimited token. -/
theorem claim_C5_counterexample :
    grep_log_for_tests ["caproto/tests/a\tFAILED x"] "caproto/tests" ["FAILED", "ERROR"] =
      ["caproto/tests/a\tFAILED"] ∧
    specFirstWhitespaceToken "caproto/tests/a\tFAILED x" = "caproto/tests/a" ∧
    ("caproto/tests/a\tFAILED" : String) ≠ "caproto/tests/a" :=
  ⟨by decide, by decide, by decide⟩

/-- C9 (amended): a fetch error for a failing, uncached job propagates out
of the per-job loop and aborts the whole run: the result is that error and
no later job is processed. -/
theorem claim_C9 (j : JobRec) (rest : List JobRec) (e : String)
    (hstate : j.state = "failed" ∨ j.state = "errored")
    (hcache : j.cached = none) (hfetch : j.fetchResult = Except.error e) :
    processJobs (j :: rest) = Except.error e := by
  rw [processJobs, if_pos hstate]
  rw [show fetchLog j = Except.error e by rw [fetchLog, hcache, hfetch]]

/-- Witness for C9 (amended): one failing job whose fetch fails. -/
theorem claim_C9_witness :
    processJobs [⟨5, "errored", none, Except.error "net"⟩] = Except.error "net" :=
  claim_C9 ⟨5, "errored", none, Except.error "net"⟩ [] "net" (Or.inr rfl) rfl rfl

/-- Counterexample for C9 as stated: with two failing jobs, a fetch error
on the first aborts the run; the second job's log is never processed and
no per-job isolation happens. -/
theorem claim_C9_counterexample :
    processJobs [⟨1, "failed", none, Except.error "boom"⟩,
      ⟨2, "failed", some ["log2"], Except.ok ["log2"]⟩] = Except.error "boom" := by
  rfl

/-- C3 (amended): the test-start pattern matches a line iff it has the
shape: optional leading content, a run of 7+ underscores, one space, a
captured test name, one space, a run of **10**+ underscores, optional
trailing content (the source regex has ten literal underscores in its
trailing run, and its leading `.*` admits arbitrary leading content). -/
theorem claim_C3 (s : String) :
    (test_marker s.data).isSome = true ↔
      ∃ lead a name b t, 7 ≤ a ∧ 10 ≤ b ∧
        s.data = lead ++ (List.replicate a '_' ++
          (' ' :: (name ++ (' ' :: (List.replicate b '_' ++ t))))) :=
  test_marker_isSome_iff s.data

/-- Counterexample for C3 as stated: a line with a 9-underscore trailing
run fits the claimed shape but is not recognized, and a line with leading
content is recognized but does not fit the claimed shape. -/
theorem claim_C3_counterexample :
    (claimTestShape ("_______ x _________").data ∧
      (test_marker ("_______ x _________").data).isSome = false) ∧
    ((test_marker ("x_______ y __________").data).isSome = true ∧
      ¬ claimTestShape ("x_______ y __________").data) := by
  refine ⟨⟨⟨7, ['x'], 9, [], by norm_num, by norm_num, by decide⟩, by decide⟩,
    ⟨by decide, ?_⟩⟩
  rintro ⟨a, name, b, t, ha, hb, heq⟩
  rcases a with _ | a'
  · omega
  · rw [List.replicate_succ, List.cons_append] at heq
    have h1 : ("x_______ y __________").data.head? = some 'x' := by decide
    have h2 : ("x_______ y __________").data.head? = some '_' := by rw [heq]; rfl
    rw [h1] at h2
    exact absurd h2 (by decide)

/-- C4 (amended): the end-of-run pattern matches a line iff it has the
shape: optional leading content, a run of 5+ equals signs, a space,
arbitrary text, " in ", arbitrary text, " seconds ", a run of **4**+
equals signs, optional trailing content (the source regex has four literal
equals signs in its trailing run and admits leading content); on a match
of a line that is neither a test-start match nor a banner, the scan
terminates and all following lines are ignored. -/
theorem claim_C4 :
    (∀ s : String, end_marker s.data = true ↔
      ∃ lead a m1 m2 b t, 5 ≤ a ∧ 4 ≤ b ∧
        s.data = lead ++ (List.replicate a '=' ++
          (' ' :: (m1 ++ (' ' :: 'i' :: 'n' :: ' ' ::
            (m2 ++ (' ' :: 's' :: 'e' :: 'c' :: 'o' :: 'n' :: 'd' :: 's' :: ' ' ::
              (List.replicate b '=' ++ t)))))))) ∧
    (∀ (line : String) (rest : List String) (acc : List (String × List String))
      (cur : Option String),
      end_marker line.data = true → test_marker line.data = none →
      line ≠ failure_marker_str → line ≠ error_marker_str →
      scanLoop (line :: rest) acc cur = acc) :=
  ⟨fun s => end_marker_iff s.data, scanLoop_end_cons⟩

/-- Witness for C4: the amended shape at a concrete summary line, and the
scan stopping there with the rest ignored. -/
theorem claim_C4_witness :
    (end_marker ("======== 3 passed in 1.2 seconds ========").data = true) ∧
    (scanLoop ["======== 3 passed in 1.2 seconds ========", "zzz"] [("t", ["x"])]
      (some "t") = [("t", ["x"])]) :=
  ⟨(claim_C4.1 "======== 3 passed in 1.2 seconds ========").mpr
      ⟨[], 8, ['3', ' ', 'p', 'a', 's', 's', 'e', 'd'], ['1', '.', '2'], 8, [],
        by norm_num, by norm_num, by decide⟩,
   claim_C4.2 "======== 3 passed in 1.2 seconds ========" ["zzz"] [("t", ["x"])]
     (some "t") (by decide) (by decide) (by decide) (by decide)⟩

/-- Counterexample for C4 as stated: a line whose trailing run has only 4
equals signs is matched by the code's end pattern (and terminates the
scan), though it does not fit the claimed 5+/5+ shape. -/
theorem claim_C4_counterexample :
    (end_marker ("===== x in y seconds ====").data = true ∧
      ¬ claimEndShape ("===== x in y seconds ====").data) ∧
    scanLoop ["===== x in y seconds ====", "zzz"] [("t", ["x"])] (some "t") =
      [("t", ["x"])] := by
  refine ⟨⟨by decide, ?_⟩, by decide⟩
  rintro ⟨a, mid, b, ha, hb, heq, -, -⟩
  have hrev : ("===== x in y seconds ====").data.reverse =
      List.replicate b '=' ++ (mid.reverse ++ (List.replicate a '=').reverse) := by
    rw [heq]
    simp [List.reverse_append, List.reverse_replicate, List.append_assoc]
  have htake : ("===== x in y seconds ====").data.reverse.take 5 =
      List.replicate 5 '=' := by
    rw [hrev, List.take_append_of_le_length (by simp; omega), List.take_replicate]
    congr 1
    omega
  have hval : ("===== x in y seconds ====").data.reverse.take 5 =
      ['=', '=', '=', '=', ' '] := by decide
  rw [hval] at htake
  exact absurd htake (by decide)

/-- C6: per test name, with no variant cap, the external diff tool is never
invoked when at most one distinct joined blob exists across the jobs, and
is invoked exactly once when two or more distinct blobs remain after
first-occurrence deduplication, with exactly one temporary file per
distinct blob. -/
theorem claim_C6 (jobs : List (Nat × Option (List String))) (key : String) :
    ((dedupFirst (blobsFor jobs key)).length ≤ 1 → diffFilesFor jobs key none = none) ∧
    (2 ≤ (dedupFirst (blobsFor jobs key)).length →
      ∃ fs, diffFilesFor jobs key none = some fs ∧
        fs.map Prod.snd = dedupFirst (blobsFor jobs key) ∧
        fs.length = (dedupFirst (blobsFor jobs key)).length) := by
  have hmap : (collectLogs none key (jobs.map (fun p => (p.1, failedLogsOf p.1 p.2)))
      []).map Prod.snd = dedupFirst (blobsFor jobs key) := by
    rw [collectLogs_none_map_snd, blobsFor_eq]
    rfl
  have hnodup : ((collectLogs none key (jobs.map (fun p => (p.1, failedLogsOf p.1 p.2)))
      []).map Prod.snd).Nodup := by
    rw [hmap]
    exact dedupFirstAux_nodup _ [] (by simp)
  have hdflt : diffFilesFor jobs key none =
      if 1 < ((collectLogs none key (jobs.map (fun p => (p.1, failedLogsOf p.1 p.2)))
          []).map Prod.snd).dedup.length then
        some (collectLogs none key (jobs.map (fun p => (p.1, failedLogsOf p.1 p.2))) [])
      else none := rfl
  have hdedup := List.dedup_eq_self.mpr hnodup
  have hlen : ((collectLogs none key (jobs.map (fun p => (p.1, failedLogsOf p.1 p.2)))
      []).map Prod.snd).length = (dedupFirst (blobsFor jobs key)).length := by
    rw [hmap]
  rw [List.length_map] at hlen
  constructor
  · intro hle
    rw [hdflt, hdedup, if_neg]
    rw [List.length_map, hlen]
    omega
  · intro hge
    refine ⟨collectLogs none key (jobs.map (fun p => (p.1, failedLogsOf p.1 p.2))) [],
      ?_, hmap, ?_⟩
    · rw [hdflt, hdedup, if_pos]
      rw [List.length_map, hlen]
      omega
    · rw [hlen]

/-- Witness for C6: two jobs with identical captures produce no invocation;
two jobs with different captures produce one invocation with one file per
distinct blob. -/
theorem claim_C6_witness :
    (diffFilesFor [(1, some [failure_marker_str, "_______ t __________", "x"]),
        (3, some [failure_marker_str, "_______ t __________", "x"])] "t" none = none) ∧
    (∃ fs, diffFilesFor [(1, some [failure_marker_str, "_______ t __________", "x"]),
        (2, some [failure_marker_str, "_______ t __________", "y"])] "t" none = some fs ∧
      fs.map Prod.snd = dedupFirst (blobsFor
        [(1, some [failure_marker_str, "_______ t __________", "x"]),
         (2, some [failure_marker_str, "_______ t __________", "y"])] "t") ∧
      fs.length = (dedupFirst (blobsFor
        [(1, some [failure_marker_str, "_______ t __________", "x"]),
         (2, some [failure_marker_str, "_______ t __________", "y"])] "t")).length) :=
  ⟨(claim_C6 [(1, some [failure_marker_str, "_______ t __________", "x"]),
      (3, some [failure_marker_str, "_______ t __________", "x"])] "t").1 (by decide),
   (claim_C6 [(1, some [failure_marker_str, "_______ t __________", "x"]),
      (2, some [failure_marker_str, "_______ t __________", "y"])] "t").2 (by decide)⟩

/-- C7 (amended): the failure-count report is printed in strictly
descending count order with ties broken by ascending lexicographic
identifier; the skipped-count report is printed in counter insertion
(first-discovery) order, unsorted. -/
theorem claim_C7 (stream : List String) :
    reportOrdered (failedReport (counterOf stream)) ∧
    skippedReport (counterOf stream) = counterOf stream := by
  refine ⟨?_, rfl⟩
  have hnd := counterOf_keys_nodup stream
  have hsorted : (stableSort pairLe (counterOf stream)).Pairwise
      (fun x y => pairLe x y = true) :=
    stableSort_pairwise pairLe pairLe_total pairLe_trans (counterOf stream)
  have hperm : List.Perm (stableSort pairLe (counterOf stream)) (counterOf stream) :=
    stableSort_perm pairLe (counterOf stream)
  have hnames : (stableSort pairLe (counterOf stream)).Pairwise
      (fun x y => x.1 ≠ y.1) := by
    have hnd' : ((stableSort pairLe (counterOf stream)).map Prod.fst).Nodup :=
      ((hperm.map Prod.fst).nodup_iff).mpr hnd
    rw [List.Nodup, List.pairwise_map] at hnd'
    exact hnd'
  have hstrict : (stableSort pairLe (counterOf stream)).Pairwise
      (fun x y => x.1 < y.1) := by
    refine (hsorted.and hnames).imp ?_
    intro x y h
    obtain ⟨hle, hne⟩ := h
    unfold pairLe at hle
    rw [if_neg (by simp [hne])] at hle
    exact of_decide_eq_true hle
  exact foldl_desc (stableSort pairLe (counterOf stream)) [] (by simp) hstrict (by simp)

/-- Counterexample for C7 as stated: the skipped-count report is not
sorted — the counter built from the stream `["b", "a", "a"]` is printed in
insertion order `[("b", 1), ("a", 2)]`, which is not descending by
count. -/
theorem claim_C7_counterexample :
    ¬ reportOrdered (skippedReport (counterOf ["b", "a", "a"])) := by
  unfold reportOrdered skippedReport
  decide

end Travisfailed
